import Mathlib

/-
Verification of the entity-mention resolution and context-extraction pipeline
of the Apple10Q-NLP-Insights repository (src/main.py and src/finbert.py; the
two files implement the same pipeline, differing only in the classification
backend).  The pipeline parts relevant to the claims are embedded as pure
Lean functions over `List Char` (a Python `str` is a sequence of code
points; all data handled by the repository is ASCII, and the embedding of
`\w`, `\s`, `str.strip()`, `str.lower()` below is their ASCII fragment).
-/

set_option maxRecDepth 20000

namespace Apple10Q

/-- Convenience conversion from a Lean string literal to the `List Char`
representation used throughout the development. -/
def lc (s : String) : List Char := s.toList

/-- Model of a raw value of the `technologies` column of the Gartner CSV as
seen by `get_technologies`: either a string cell or a missing value (pandas
`NaN`).  The code applies Python `str(...)` to the cell before splitting. -/
inductive Cell : Type
| strv (v : List Char)
| nan

/-- Python `str(...)` applied to a cell: identity on strings, and the float
`nan` renders as the three-character string `nan`. -/
def cellStr : Cell → List Char
| Cell.strv v => v
| Cell.nan => lc "nan"

/-- ASCII fragment of Python regex `\s` / `str.strip()` whitespace. -/
def isSpaceChar (c : Char) : Bool :=
  c = ' ' || c = '\t' || c = '\n' || c = '\r' || c = '\x0b' || c = '\x0c'

/-- ASCII fragment of Python regex `\w`: letters, digits and underscore. -/
def isWordChar (c : Char) : Bool := c.isAlphanum || c = '_'

/-- Python `str.strip()`: remove leading and trailing whitespace. -/
def stripChars (l : List Char) : List Char :=
  ((l.dropWhile isSpaceChar).reverse.dropWhile isSpaceChar).reverse

/-- Python `str.split(';')`: split on every semicolon; the empty string
splits to a single empty piece. -/
def splitOnSemi : List Char → List (List Char)
| [] => [[]]
| c :: cs =>
  if c = ';' then [] :: splitOnSemi cs
  else
    match splitOnSemi cs with
    | [] => [c :: []]
    | p :: ps => (c :: p) :: ps

/-- A synonym map (Python dict in insertion order): canonical entity name
mapped to its list of surface-form variations. -/
abbrev SynMap : Type := List (List Char × List (List Char))

/-- Membership test of a key among the keys of an association list,
modelling Python `k in dict`. -/
def containsKeyA {β : Type} (m : List (List Char × β)) (k : List Char) : Bool :=
  m.any (fun p => decide (p.1 = k))

/-- Lookup of a key in an association list, modelling Python `dict[k]`. -/
def lookupA {β : Type} : List (List Char × β) → List Char → Option β
| [], _ => none
| p :: rest, k => if p.1 = k then some p.2 else lookupA rest k

/-- The hard-coded seed alias table of `get_technologies` (identical in
src/main.py lines 47-56 and src/finbert.py lines 53-61). -/
def seedMap : SynMap :=
  (lc "Mac", [lc "Mac", lc "macOS", lc "MacBook"]) ::
  (lc "iPhone", [lc "iPhone", lc "iOS"]) ::
  (lc "iPad", [lc "iPad", lc "iOS"]) ::
  (lc "Apple Watch", [lc "Apple Watch", lc "watchOS"]) ::
  (lc "Apple TV", [lc "Apple TV", lc "tvOS"]) ::
  (lc "Apple Pay", [lc "Apple Pay"]) ::
  (lc "iCloud", [lc "iCloud", lc "Cloud Computing"]) :: []

/-- Python `re.sub(r'[^\w\s]', '', tech).strip()`: drop every character
that is neither a word character nor whitespace, then strip. -/
def normalizeName (t : List Char) : List Char :=
  stripChars (t.filter (fun c => isWordChar c || isSpaceChar c))

/-- One iteration of the normalization loop of `get_technologies`
(src/main.py lines 67-70): insert the normalized name as a new entry with
itself as sole variation when it is non-empty and not already a canonical
key (the membership test `normalized_tech not in synonym_map` checks dict keys
only). -/
def insertTech (m : SynMap) (tech : List Char) : SynMap :=
  let n := normalizeName tech
  if n.isEmpty || containsKeyA m n then m else m ++ [(n, [n])]

/-- The `tech_list` built by `get_technologies` (src/main.py lines 59-61):
each row is stringified, split on semicolons, and each piece stripped. -/
def techList (rows : List Cell) : List (List Char) :=
  rows.flatMap (fun r => (splitOnSemi (cellStr r)).map stripChars)

/-- Embedding of `get_technologies` (src/main.py lines 42-75): the raw
`technologies` column is the input; the CSV reading itself is the external
collaborator.  Seed map first, then each normalized discovered name is
inserted when new. -/
def get_technologies (rows : List Cell) : SynMap :=
  (techList rows).foldl insertTech seedMap

/-- Wordness of the document character at index `j`; out-of-range positions
count as non-word, matching how regex `\b` treats the string edges. -/
def wordCharAt (d : List Char) (j : Nat) : Bool := isWordChar (d.getD j ' ')

/-- Python regex `\b` at position `p` of document `d`: the wordness of the
character before `p` differs from the wordness of the character at `p`. -/
def boundaryAt (d : List Char) (p : Nat) : Bool :=
  (match p with
   | 0 => false
   | Nat.succ q => wordCharAt d q) != wordCharAt d p

/-- Python `str.lower()` (ASCII fragment), used to model `re.IGNORECASE`. -/
def lowerList (l : List Char) : List Char := l.map Char.toLower

/-- Embedding of a match of the compiled pattern
`re.compile(r'\b' + re.escape(variation) + r'\b', re.IGNORECASE)` at
position `i` of the document: the escaped variation is a literal, compared
case-insensitively, with a word boundary on each side. -/
def matchAt (d v : List Char) (i : Nat) : Bool :=
  decide (i + v.length ≤ d.length)
  && decide (lowerList ((d.drop i).take v.length) = lowerList v)
  && boundaryAt d i
  && boundaryAt d (i + v.length)

/-- Position of the first (leftmost) match of a variation in the document,
modelling the first element yielded by `pattern.finditer(document)`. -/
def firstMatch (d v : List Char) : Option Nat :=
  (List.range (d.length + 1)).find? (fun i => matchAt d v i)

/-- Python `max(0, match.start() - window)` over the integers. -/
def clipStart (mStart w : Nat) : Int := max 0 ((mStart : Int) - (w : Int))

/-- Python `min(len(document), match.end() + window)` over the integers. -/
def clipEnd (dlen mEnd w : Nat) : Int := min (dlen : Int) ((mEnd : Int) + (w : Int))

/-- The context window `document[start:end]` extracted by `find_context`
(src/main.py lines 90-92): the span `[mStart - w, mEnd + w]` clipped to the
document bounds, then sliced out of the document. -/
def contextSlice (d : List Char) (mStart mEnd w : Nat) : List Char :=
  (d.take (clipEnd d.length mEnd w).toNat).drop (clipStart mStart w).toNat

/-- Python dict assignment `mentions[primary_tech] = context`: overwrite in
place when the key is present, append otherwise. -/
def dictInsert (m : List (List Char × List Char)) (k v : List Char) :
    List (List Char × List Char) :=
  if containsKeyA m k then m.map (fun p => if p.1 = k then (k, v) else p)
  else m ++ [(k, v)]

/-- The inner loops of `find_context` for one entity (src/main.py lines
86-97): scan the variations in order; for each variation take the first
`finditer` match, record its context and stop the occurrence scan; after
each variation, stop the variation scan once the entity has a mention. -/
def scanVars (d : List Char) (w : Nat) (tech : List Char) :
    List (List Char) → List (List Char × List Char) → List (List Char × List Char)
| [], mentions => mentions
| v :: rest, mentions =>
  let m2 := match firstMatch d v with
    | some i => dictInsert mentions tech (contextSlice d i (i + v.length) w)
    | none => mentions
  if containsKeyA m2 tech then m2 else scanVars d w tech rest m2

/-- Embedding of `find_context` (src/main.py lines 81-106): fold the scan
over the entities of the synonym map, starting from the empty mentions
dict.  The source's default window is 500. -/
def find_context (document : List Char) (technologies : SynMap) (w : Nat) :
    List (List Char × List Char) :=
  technologies.foldl (fun mentions p => scanVars document w p.1 p.2 mentions) []

/-- Straight-line form of the per-entity scan when the entity is not yet in
the mentions dict: first variation with a match wins, with the context of
its first occurrence. -/
def findMention (d : List Char) (w : Nat) : List (List Char) → Option (List Char)
| [] => none
| v :: rest =>
  match firstMatch d v with
  | some i => some (contextSlice d i (i + v.length) w)
  | none => findMention d w rest

/-- All match positions of a variation, in ascending document order. -/
def matchPositions (d v : List Char) : List Nat :=
  (List.range (d.length + 1)).filter (fun i => matchAt d v i)

/-- Modelled from the spec: the flattened candidate list of all
(variation-rank, match-position) pairs of an entity, in lexicographic
(variation order, then position order) order.  The spec prescribes the
entity's sole mention as the minimal element of this list. -/
def specCandidates (d : List Char) : List (List Char) → List (Nat × Nat)
| [] => []
| v :: rest =>
  (matchPositions d v).map (fun i => (0, i))
    ++ (specCandidates d rest).map (fun q => (q.1 + 1, q.2))

/-- Modelled from the spec: the context of the first candidate in
(variation order, position order), when any candidate exists. -/
def specFirstMention (d : List Char) (vars : List (List Char)) (w : Nat) :
    Option (List Char) :=
  (specCandidates d vars).head?.map
    (fun q => contextSlice d q.2 (q.2 + (vars.getD q.1 []).length) w)

/-- Existence of a whole-word, case-insensitive occurrence of `v` in `d`. -/
def hasStandalone (d v : List Char) : Bool :=
  (List.range (d.length + 1)).any (fun i => matchAt d v i)

/-- Embedding of the classification loop of `main` (src/main.py lines
149-156): each located mention is classified in dict order; the backend
call (`analyze_with_openai`, or `analyze_with_finbert` in src/finbert.py
lines 125-133) may raise, and the loop has no exception handler, so a
raised error ends the loop.  The result is the list of per-entity results
delivered before the failure, paired with the escaped error, if any. -/
def runClassification (classify : List Char → List Char → Except (List Char) (List Char)) :
    List (List Char × List Char) → List (List Char × List Char) × Option (List Char)
| [] => ([], none)
| (t, c) :: rest =>
  match classify c t with
  | Except.error e => ([], some e)
  | Except.ok r =>
    let res := runClassification classify rest
    ((t, r) :: res.1, res.2)

/-- Boolean membership of a string in a list of strings. -/
def memB (x : List Char) (l : List (List Char)) : Bool :=
  l.any (fun y => decide (y = x))

/-- Order-independent equality of two variation lists, read as sets. -/
def sameSetB (l1 l2 : List (List Char)) : Bool :=
  l1.all (fun x => memB x l2) && l2.all (fun x => memB x l1)

/-- Structural identity of two synonym maps as prescribed by the spec:
same canonical keys, and for each key the same variation set, compared
independently of order. -/
def structIdent (m1 m2 : SynMap) : Bool :=
  (m1.all (fun p => match lookupA m2 p.1 with
    | some vs => sameSetB p.2 vs
    | none => false))
  && m2.all (fun p => (lookupA m1 p.1).isSome)

/-- Concrete classification backend for the failure scenario: succeeds with
a fixed label except on entity `B`, where it raises. -/
def failOnB (_ctx t : List Char) : Except (List Char) (List Char) :=
  if t = lc "B" then Except.error (lc "boom") else Except.ok (lc "Positive")

/-! Basic lemmas about the association-list operations. -/

theorem containsKeyA_append {β : Type} (m1 m2 : List (List Char × β)) (k : List Char) :
    containsKeyA (m1 ++ m2) k = (containsKeyA m1 k || containsKeyA m2 k) := by
  simp [containsKeyA, List.any_append]

theorem containsKeyA_true_iff {β : Type} (m : List (List Char × β)) (k : List Char) :
    containsKeyA m k = true ↔ ∃ p ∈ m, p.1 = k := by
  simp only [containsKeyA, List.any_eq_true, decide_eq_true_eq]

theorem containsKeyA_false_iff {β : Type} (m : List (List Char × β)) (k : List Char) :
    containsKeyA m k = false ↔ ∀ p ∈ m, p.1 ≠ k := by
  simp only [containsKeyA, List.any_eq_false, decide_eq_true_eq]

theorem lookupA_mem {β : Type} (m : List (List Char × β)) (k : List Char) (v : β) :
    lookupA m k = some v → (k, v) ∈ m := by
  induction m with
  | nil => intro h; simp [lookupA] at h
  | cons p rest ih =>
    intro h
    by_cases hk : p.1 = k
    · simp only [lookupA, if_pos hk, Option.some.injEq] at h
      have hp : p = (k, v) := by
        cases p with
        | mk a b => simp only at hk h; rw [hk, h]
      rw [hp] at *
      exact List.mem_cons_self _ _
    · simp only [lookupA, if_neg hk] at h
      exact List.mem_cons_of_mem _ (ih h)

theorem lookupA_eq_none_of_not_key {β : Type} (m : List (List Char × β)) (k : List Char)
    (h : ∀ p ∈ m, p.1 ≠ k) : lookupA m k = none := by
  induction m with
  | nil => rfl
  | cons p rest ih =>
    have hp : p.1 ≠ k := h p (List.mem_cons_self _ _)
    simp only [lookupA, if_neg hp]
    exact ih (fun q hq => h q (List.mem_cons_of_mem _ hq))

theorem lookupA_append_right {β : Type} (m1 m2 : List (List Char × β)) (k : List Char)
    (h : ∀ p ∈ m1, p.1 ≠ k) : lookupA (m1 ++ m2) k = lookupA m2 k := by
  induction m1 with
  | nil => rfl
  | cons p rest ih =>
    have hp : p.1 ≠ k := h p (List.mem_cons_self _ _)
    simp only [List.cons_append, lookupA, if_neg hp]
    exact ih (fun q hq => h q (List.mem_cons_of_mem _ hq))

theorem lookupA_self_of_nodup {β : Type} (m : List (List Char × β))
    (hnd : (m.map Prod.fst).Nodup) :
    ∀ p ∈ m, lookupA m p.1 = some p.2 := by
  induction m with
  | nil => intro p hp; simp at hp
  | cons q rest ih =>
    simp only [List.map_cons, List.nodup_cons] at hnd
    intro p hp
    rcases List.mem_cons.mp hp with hpq | hpr
    · rw [hpq]; simp [lookupA]
    · have hne : q.1 ≠ p.1 := by
        intro hEq
        exact hnd.1 (hEq ▸ List.mem_map_of_mem Prod.fst hpr)
      simp only [lookupA, if_neg hne]
      exact ih hnd.2 p hpr

/-! Lemmas about the synonym-index construction. -/

theorem mem_foldl_insertTech (l : List (List Char)) :
    ∀ acc : SynMap, ∀ p ∈ l.foldl insertTech acc,
      p ∈ acc ∨ ∃ n : List Char, p = (n, [n]) := by
  induction l with
  | nil => intro acc p hp; exact Or.inl hp
  | cons t rest ih =>
    intro acc p hp
    rw [List.foldl_cons] at hp
    rcases ih (insertTech acc t) p hp with hmem | hex
    · simp only [insertTech] at hmem
      split at hmem
      · exact Or.inl hmem
      · rcases List.mem_append.mp hmem with h1 | h2
        · exact Or.inl h1
        · exact Or.inr ⟨normalizeName t, List.mem_singleton.mp h2⟩
    · exact Or.inr hex

theorem containsKeyA_insertTech (m : SynMap) (t k : List Char) :
    containsKeyA (insertTech m t) k
      = (containsKeyA m k || (!(normalizeName t).isEmpty && decide (normalizeName t = k))) := by
  simp only [insertTech]
  by_cases hcond : ((normalizeName t).isEmpty || containsKeyA m (normalizeName t)) = true
  · rw [if_pos hcond]
    cases he : (normalizeName t).isEmpty with
    | true => simp [he]
    | false =>
      have hc : containsKeyA m (normalizeName t) = true := by
        cases hcc : containsKeyA m (normalizeName t)
        · rw [he, hcc] at hcond; simp at hcond
        · rfl
      by_cases hk : normalizeName t = k
      · subst hk; simp [hc]
      · simp [hk]
  · rw [if_neg hcond]
    simp only [Bool.or_eq_true, not_or, Bool.not_eq_true] at hcond
    simp [containsKeyA_append, containsKeyA, hcond.1]

theorem containsKeyA_foldl (l : List (List Char)) :
    ∀ (acc : SynMap) (k : List Char),
      containsKeyA (l.foldl insertTech acc) k
        = (containsKeyA acc k
            || l.any (fun t => !(normalizeName t).isEmpty && decide (normalizeName t = k))) := by
  induction l with
  | nil => intro acc k; simp
  | cons t rest ih =>
    intro acc k
    rw [List.foldl_cons, ih, containsKeyA_insertTech, List.any_cons]
    cases containsKeyA acc k <;> simp [Bool.or_assoc]

theorem nodup_keys_insertTech (m : SynMap) (t : List Char)
    (h : (m.map Prod.fst).Nodup) : ((insertTech m t).map Prod.fst).Nodup := by
  simp only [insertTech]
  split
  · exact h
  · next hcond =>
    simp only [Bool.or_eq_true, not_or, Bool.not_eq_true] at hcond
    have hnotmem : normalizeName t ∉ m.map Prod.fst := by
      intro hm
      rcases List.mem_map.mp hm with ⟨p, hp, hp1⟩
      exact (containsKeyA_false_iff m (normalizeName t)).mp hcond.2 p hp hp1
    rw [List.map_append]
    exact List.Nodup.append h (List.nodup_singleton _)
      (by simp [List.disjoint_singleton, hnotmem])

theorem nodup_keys_foldl (l : List (List Char)) :
    ∀ acc : SynMap, (acc.map Prod.fst).Nodup →
      ((l.foldl insertTech acc).map Prod.fst).Nodup := by
  induction l with
  | nil => intro acc h; exact h
  | cons t rest ih =>
    intro acc h
    rw [List.foldl_cons]
    exact ih _ (nodup_keys_insertTech acc t h)

theorem seedMap_keys_nodup : (seedMap.map Prod.fst).Nodup := by decide

theorem nodup_keys_get_technologies (rows : List Cell) :
    ((get_technologies rows).map Prod.fst).Nodup :=
  nodup_keys_foldl (techList rows) seedMap seedMap_keys_nodup

theorem foldl_insertTech_blank (l : List (List Char)) :
    ∀ m : SynMap, (∀ p ∈ l, normalizeName p = ([] : List Char)) →
      l.foldl insertTech m = m := by
  induction l with
  | nil => intro m _; rfl
  | cons t rest ih =>
    intro m h
    rw [List.foldl_cons]
    have ht : normalizeName t = [] := h t (List.mem_cons_self _ _)
    have hstep : insertTech m t = m := by simp [insertTech, ht]
    rw [hstep]
    exact ih m (fun p hp => h p (List.mem_cons_of_mem _ hp))

theorem memB_true_of_mem (x : List Char) (l : List (List Char)) (h : x ∈ l) :
    memB x l = true := by
  simp only [memB, List.any_eq_true, decide_eq_true_eq]
  exact ⟨x, h, rfl⟩

theorem sameSetB_refl (l : List (List Char)) : sameSetB l l = true := by
  simp only [sameSetB, Bool.and_eq_true, List.all_eq_true]
  exact ⟨fun x hx => memB_true_of_mem x l hx, fun x hx => memB_true_of_mem x l hx⟩

/-! Claim C1. -/

/-- C1 (amended): for every input row sequence, every canonical key of the
index built by `get_technologies` maps to a non-empty variation list.  The
second half of the original claim is false (see `c1_counterexample`): the
seed table itself gives the distinct canonical keys iPhone and iPad the
shared variation iOS. -/
theorem c1_variation_lists_nonempty (rows : List Cell) (k : List Char)
    (vs : List (List Char)) (h : (k, vs) ∈ get_technologies rows) : vs ≠ [] := by
  rcases mem_foldl_insertTech (techList rows) seedMap (k, vs) h with hseed | ⟨n, hn⟩
  · have hall : ∀ p ∈ seedMap, p.2 ≠ ([] : List (List Char)) := by decide
    exact hall (k, vs) hseed
  · have h2 : vs = [n] := congrArg Prod.snd hn
    rw [h2]
    exact List.cons_ne_nil n []

/-- C1 counterexample: on the empty row sequence the index is the seed
table, in which the distinct canonical keys iPhone and iPad share the
variation string iOS (identical even before lowercasing). -/
theorem c1_counterexample :
    lookupA (get_technologies []) (lc "iPhone") = some [lc "iPhone", lc "iOS"]
    ∧ lookupA (get_technologies []) (lc "iPad") = some [lc "iPad", lc "iOS"]
    ∧ lc "iPhone" ≠ lc "iPad"
    ∧ lowerList (lc "iOS") = lowerList (lc "iOS") := by decide

/-- Witness for `c1_variation_lists_nonempty` at a concrete entry. -/
theorem c1_witness : [lc "Mac", lc "macOS", lc "MacBook"] ≠ ([] : List (List Char)) :=
  c1_variation_lists_nonempty [] (lc "Mac") [lc "Mac", lc "macOS", lc "MacBook"] (by decide)

/-! Claim C2. -/

/-- C2 (amended): a discovered name becomes a canonical key exactly when
its normalization is non-empty, regardless of whether it already occurs as
a variation of an existing entry — the code only tests membership among the
canonical keys.  Moreover every non-seed canonical key maps to itself as
its sole variation. -/
theorem c2_insertion_characterization (rows : List Cell) (n : List Char) :
    (containsKeyA (get_technologies rows) n
       = (containsKeyA seedMap n
           || (techList rows).any
               (fun t => !(normalizeName t).isEmpty && decide (normalizeName t = n))))
    ∧ (containsKeyA seedMap n = false →
        ∀ vs, lookupA (get_technologies rows) n = some vs → vs = [n]) := by
  constructor
  · exact containsKeyA_foldl (techList rows) seedMap n
  · intro hns vs hvs
    have hmem := lookupA_mem _ _ _ hvs
    rcases mem_foldl_insertTech (techList rows) seedMap (n, vs) hmem with hseed | ⟨m0, hm0⟩
    · have htr : containsKeyA seedMap n = true :=
        (containsKeyA_true_iff seedMap n).mpr ⟨(n, vs), hseed, rfl⟩
      rw [hns] at htr
      exact absurd htr (by simp)
    · have h1 : n = m0 := congrArg Prod.fst hm0
      have h2 : vs = [m0] := congrArg Prod.snd hm0
      rw [h2, h1]

/-- C2 counterexample: the name macOS is already present as a variation of
the entry Mac, yet the code re-inserts it as its own canonical key, because
the membership test checks canonical keys only. -/
theorem c2_counterexample :
    lookupA (get_technologies [Cell.strv (lc "macOS")]) (lc "Mac")
      = some [lc "Mac", lc "macOS", lc "MacBook"]
    ∧ containsKeyA (get_technologies [Cell.strv (lc "macOS")]) (lc "macOS") = true
    ∧ lookupA (get_technologies [Cell.strv (lc "macOS")]) (lc "macOS")
      = some [lc "macOS"] := by decide

/-- Witness for `c2_insertion_characterization` at a concrete input. -/
theorem c2_witness : ([lc "macOS"] : List (List Char)) = [lc "macOS"] :=
  (c2_insertion_characterization [Cell.strv (lc "macOS")] (lc "macOS")).2
    (by decide) [lc "macOS"] (by decide)

/-! Claim C4. -/

/-- C4 (amended): processing raw rows never raises (the embedding is a
total function), and a row whose pieces all normalize to the empty string
contributes no entry to the index.  A missing (NaN) row, however, is first
stringified to "nan" and therefore does contribute a "nan" entry — see
`c4_counterexample`. -/
theorem c4_blank_rows_contribute_nothing (rows : List Cell) (s : List Char)
    (h : ∀ p ∈ (splitOnSemi s).map stripChars, normalizeName p = ([] : List Char)) :
    get_technologies (rows ++ [Cell.strv s]) = get_technologies rows := by
  unfold get_technologies
  have hsplit : techList (rows ++ [Cell.strv s])
      = techList rows ++ (splitOnSemi (cellStr (Cell.strv s))).map stripChars := by
    simp [techList]
  rw [hsplit, List.foldl_append]
  exact foldl_insertTech_blank _ _ h

/-- C4 counterexample: a missing (NaN) row is stringified by `str(...)` to
the string "nan", which survives normalization and is inserted as a
canonical entry, contradicting the claim that such rows contribute no
entry. -/
theorem c4_counterexample :
    containsKeyA (get_technologies [Cell.nan]) (lc "nan") = true
    ∧ lookupA (get_technologies [Cell.nan]) (lc "nan") = some [lc "nan"] := by decide

/-- Witness for `c4_blank_rows_contribute_nothing` on a whitespace-and-
punctuation row. -/
theorem c4_witness :
    get_technologies ([Cell.nan] ++ [Cell.strv (lc " ; .")]) = get_technologies [Cell.nan] :=
  c4_blank_rows_contribute_nothing [Cell.nan] (lc " ; .") (by decide)

/-! Claim C8. -/

/-- C8: building the synonym index twice from identical input yields
structurally identical indexes: the same canonical keys, each mapped to the
same variation set, compared independently of order. -/
theorem c8_idempotent (rows : List Cell) :
    structIdent (get_technologies rows) (get_technologies rows) = true := by
  have hnd := nodup_keys_get_technologies rows
  have hself := lookupA_self_of_nodup _ hnd
  simp only [structIdent, Bool.and_eq_true, List.all_eq_true]
  constructor
  · intro p hp
    rw [hself p hp]
    exact sameSetB_refl p.2
  · intro p hp
    rw [hself p hp]
    rfl

/-! Lemmas about matching and the mention scan. -/

theorem find?_eq_head?_filter {α : Type} (p : α → Bool) (l : List α) :
    l.find? p = (l.filter p).head? := by
  induction l with
  | nil => rfl
  | cons a t ih =>
    cases h : p a with
    | true => simp only [List.find?_cons, List.filter_cons, h, if_true, List.head?_cons]
    | false => simp only [List.find?_cons, List.filter_cons, h, Bool.false_eq_true, if_false, ih]

theorem firstMatch_eq_head (d v : List Char) :
    firstMatch d v = (matchPositions d v).head? :=
  find?_eq_head?_filter _ _

theorem matchAt_le (d v : List Char) (i : Nat) (h : matchAt d v i = true) :
    i + v.length ≤ d.length := by
  simp only [matchAt, Bool.and_eq_true, decide_eq_true_eq] at h
  exact h.1.1.1

theorem matchAt_boundaries (d v : List Char) (i : Nat) (h : matchAt d v i = true) :
    boundaryAt d i = true ∧ boundaryAt d (i + v.length) = true := by
  simp only [matchAt, Bool.and_eq_true] at h
  exact ⟨h.1.2, h.2⟩

theorem mem_matchPositions (d v : List Char) (i : Nat) :
    i ∈ matchPositions d v ↔ matchAt d v i = true := by
  simp only [matchPositions, List.mem_filter, List.mem_range]
  constructor
  · exact fun h => h.2
  · intro h
    exact ⟨Nat.lt_succ_of_le (le_trans (Nat.le_add_right i v.length) (matchAt_le d v i h)), h⟩

theorem findMention_eq_none (d : List Char) (w : Nat) :
    ∀ vars : List (List Char), (∀ v ∈ vars, ∀ i, matchAt d v i = false) →
      findMention d w vars = none := by
  intro vars
  induction vars with
  | nil => intro _; rfl
  | cons v rest ih =>
    intro h
    simp only [findMention]
    have hf : firstMatch d v = none := by
      apply List.find?_eq_none.mpr
      intro i _
      rw [h v (List.mem_cons_self _ _) i]
      simp
    rw [hf]
    exact ih (fun u hu => h u (List.mem_cons_of_mem _ hu))

theorem dictInsert_fresh (m : List (List Char × List Char)) (k v : List Char)
    (h : containsKeyA m k = false) : dictInsert m k v = m ++ [(k, v)] := by
  simp [dictInsert, h]

theorem scanVars_fresh (d : List Char) (w : Nat) (tech : List Char) :
    ∀ (vars : List (List Char)) (mentions : List (List Char × List Char)),
      containsKeyA mentions tech = false →
      scanVars d w tech vars mentions
        = (match findMention d w vars with
           | some c => mentions ++ [(tech, c)]
           | none => mentions) := by
  intro vars
  induction vars with
  | nil => intro mentions _; rfl
  | cons v rest ih =>
    intro mentions h
    cases hf : firstMatch d v with
    | some i =>
      simp only [scanVars, findMention, hf]
      rw [dictInsert_fresh mentions tech _ h]
      have hck : containsKeyA (mentions ++ [(tech, contextSlice d i (i + v.length) w)]) tech
          = true := by
        rw [containsKeyA_append]
        simp [containsKeyA]
      rw [hck]
      simp
    | none =>
      simp only [scanVars, findMention, hf]
      rw [h]
      simp only [Bool.false_eq_true, if_false]
      exact ih mentions h

theorem foldl_scan_eq (d : List Char) (w : Nat) :
    ∀ (l : List (List Char × List (List Char))) (mentions : List (List Char × List Char)),
      (l.map Prod.fst).Nodup →
      (∀ p ∈ l, containsKeyA mentions p.1 = false) →
      l.foldl (fun ms p => scanVars d w p.1 p.2 ms) mentions
        = mentions ++ l.filterMap (fun p => (findMention d w p.2).map (fun c => (p.1, c))) := by
  intro l
  induction l with
  | nil => intro mentions _ _; simp
  | cons q rest ih =>
    intro mentions hnd hfresh
    rw [List.foldl_cons]
    have hq : containsKeyA mentions q.1 = false := hfresh q (List.mem_cons_self _ _)
    rw [scanVars_fresh d w q.1 q.2 mentions hq]
    simp only [List.map_cons, List.nodup_cons] at hnd
    cases hm : findMention d w q.2 with
    | none =>
      rw [ih mentions hnd.2 (fun p hp => hfresh p (List.mem_cons_of_mem _ hp))]
      simp [List.filterMap_cons, hm]
    | some c =>
      have hfresh2 : ∀ p ∈ rest, containsKeyA (mentions ++ [(q.1, c)]) p.1 = false := by
        intro p hp
        rw [containsKeyA_append]
        have h1 : containsKeyA mentions p.1 = false := hfresh p (List.mem_cons_of_mem _ hp)
        have hne : q.1 ≠ p.1 := fun hEq => hnd.1 (hEq ▸ List.mem_map_of_mem Prod.fst hp)
        have h2 : containsKeyA [(q.1, c)] p.1 = false := by
          simp [containsKeyA, hne]
        rw [h1, h2]
        rfl
      rw [ih (mentions ++ [(q.1, c)]) hnd.2 hfresh2]
      simp [List.filterMap_cons, hm]

theorem find_context_eq_filterMap (d : List Char) (idx : SynMap) (w : Nat)
    (hnd : (idx.map Prod.fst).Nodup) :
    find_context d idx w
      = idx.filterMap (fun p => (findMention d w p.2).map (fun c => (p.1, c))) := by
  unfold find_context
  rw [foldl_scan_eq d w idx [] hnd (fun p _ => rfl)]
  simp

theorem keys_filterMap_mentions (d : List Char) (w : Nat) (l : SynMap) :
    ∀ p ∈ l.filterMap (fun p => (findMention d w p.2).map (fun c => (p.1, c))),
      p.1 ∈ l.map Prod.fst := by
  intro p hp
  rcases List.mem_filterMap.mp hp with ⟨q, hq, hfq⟩
  cases hm : findMention d w q.2 with
  | none => rw [hm] at hfq; cases hfq
  | some c =>
    rw [hm] at hfq
    simp only [Option.map_some', Option.some.injEq] at hfq
    rw [← hfq]
    exact List.mem_map_of_mem Prod.fst hq

theorem lookupA_filterMap_mentions (d : List Char) (w : Nat) :
    ∀ idx : SynMap, (idx.map Prod.fst).Nodup →
      ∀ (t : List Char) (vs : List (List Char)), (t, vs) ∈ idx →
      lookupA (idx.filterMap (fun p => (findMention d w p.2).map (fun c => (p.1, c)))) t
        = findMention d w vs := by
  intro idx
  induction idx with
  | nil => intro _ t vs h; cases h
  | cons q rest ih =>
    intro hnd t vs hmem
    simp only [List.map_cons, List.nodup_cons] at hnd
    rcases List.mem_cons.mp hmem with hq | hr
    · have hq1 : q = (t, vs) := hq.symm
      subst hq1
      cases hm : findMention d w vs with
      | some c =>
        simp only [List.filterMap_cons, hm, Option.map_some', lookupA, if_pos rfl, if_true]
      | none =>
        simp only [List.filterMap_cons, hm, Option.map_none']
        apply lookupA_eq_none_of_not_key
        intro p hp
        have hpk := keys_filterMap_mentions d w rest p hp
        intro hEq
        exact hnd.1 (hEq ▸ hpk)
    · have hne : q.1 ≠ t := by
        intro hEq
        exact hnd.1 (hEq ▸ List.mem_map_of_mem Prod.fst hr)
      cases hm : findMention d w q.2 with
      | some c =>
        simp only [List.filterMap_cons, hm, Option.map_some', lookupA, if_neg hne]
        exact ih hnd.2 t vs hr
      | none =>
        simp only [List.filterMap_cons, hm, Option.map_none']
        exact ih hnd.2 t vs hr

theorem lookupA_find_context (d : List Char) (idx : SynMap) (w : Nat)
    (t : List Char) (vs : List (List Char))
    (hnd : (idx.map Prod.fst).Nodup) (hmem : (t, vs) ∈ idx) :
    lookupA (find_context d idx w) t = findMention d w vs := by
  rw [find_context_eq_filterMap d idx w hnd]
  exact lookupA_filterMap_mentions d w idx hnd t vs hmem

theorem keys_filterMap_sublist (d : List Char) (w : Nat) :
    ∀ l : SynMap,
      ((l.filterMap (fun p => (findMention d w p.2).map (fun c => (p.1, c)))).map
        Prod.fst).Sublist (l.map Prod.fst) := by
  intro l
  induction l with
  | nil => exact List.Sublist.refl _
  | cons q rest ih =>
    cases hm : findMention d w q.2 with
    | none =>
      simp only [List.filterMap_cons, hm, Option.map_none', List.map_cons]
      exact ih.cons _
    | some c =>
      simp only [List.filterMap_cons, hm, Option.map_some', List.map_cons]
      exact ih.cons₂ _

theorem find_context_keys_nodup (d : List Char) (idx : SynMap) (w : Nat)
    (hnd : (idx.map Prod.fst).Nodup) :
    ((find_context d idx w).map Prod.fst).Nodup := by
  rw [find_context_eq_filterMap d idx w hnd]
  exact (keys_filterMap_sublist d w idx).nodup hnd

theorem findMention_eq_spec (d : List Char) (w : Nat) :
    ∀ vars : List (List Char), findMention d w vars = specFirstMention d vars w := by
  intro vars
  induction vars with
  | nil => rfl
  | cons v rest ih =>
    simp only [findMention, specFirstMention, specCandidates]
    rw [firstMatch_eq_head]
    cases hm : matchPositions d v with
    | nil =>
      simp only [hm, List.map_nil, List.nil_append, List.head?_nil]
      rw [ih]
      simp only [specFirstMention, List.head?_map, Option.map_map]
      cases (specCandidates d rest).head? with
      | none => rfl
      | some q => rfl
    | cons i tail =>
      simp only [hm, List.map_cons, List.cons_append, List.head?_cons]
      rfl

theorem mem_specCandidates (d : List Char) :
    ∀ (vars : List (List Char)) (r i : Nat),
      (r, i) ∈ specCandidates d vars
        ↔ (r < vars.length ∧ matchAt d (vars.getD r []) i = true) := by
  intro vars
  induction vars with
  | nil => intro r i; simp [specCandidates]
  | cons v rest ih =>
    intro r i
    simp only [specCandidates, List.mem_append, List.mem_map]
    cases r with
    | zero =>
      simp only [List.length_cons, List.getD_cons_zero]
      constructor
      · rintro (⟨j, hj, hEq⟩ | ⟨q, _, hEq⟩)
        · have hj2 : j = i := congrArg Prod.snd hEq
          subst hj2
          exact ⟨Nat.succ_pos _, (mem_matchPositions d v j).mp hj⟩
        · have : q.1 + 1 = 0 := congrArg Prod.fst hEq
          omega
      · intro h
        exact Or.inl ⟨i, (mem_matchPositions d v i).mpr h.2, rfl⟩
    | succ r0 =>
      simp only [List.length_cons, List.getD_cons_succ]
      constructor
      · rintro (⟨j, _, hEq⟩ | ⟨q, hq, hEq⟩)
        · have : (0 : Nat) = r0 + 1 := congrArg Prod.fst hEq
          omega
        · have h1 : q.1 + 1 = r0 + 1 := congrArg Prod.fst hEq
          have h2 : q.2 = i := congrArg Prod.snd hEq
          have h1b : q.1 = r0 := by omega
          have hq2 : (r0, i) ∈ specCandidates d rest := by
            rw [← h1b, ← h2]
            exact hq
          have hres := (ih r0 i).mp hq2
          exact ⟨Nat.succ_lt_succ hres.1, hres.2⟩
      · intro h
        refine Or.inr ⟨(r0, i), (ih r0 i).mpr ⟨Nat.lt_of_succ_lt_succ h.1, h.2⟩, rfl⟩

theorem specCandidates_pairwise (d : List Char) :
    ∀ vars : List (List Char),
      (specCandidates d vars).Pairwise
        (fun a b => a.1 < b.1 ∨ (a.1 = b.1 ∧ a.2 < b.2)) := by
  intro vars
  induction vars with
  | nil => exact List.Pairwise.nil
  | cons v rest ih =>
    simp only [specCandidates]
    rw [List.pairwise_append]
    refine ⟨?_, ?_, ?_⟩
    · rw [List.pairwise_map]
      have hpw : (matchPositions d v).Pairwise (· < ·) :=
        List.Pairwise.sublist (List.filter_sublist _) (List.pairwise_lt_range _)
      exact hpw.imp (fun h => Or.inr ⟨rfl, h⟩)
    · rw [List.pairwise_map]
      refine ih.imp ?_
      intro a b h
      rcases h with h | ⟨h1, h2⟩
      · exact Or.inl (Nat.succ_lt_succ h)
      · exact Or.inr ⟨by rw [h1], h2⟩
    · intro a ha b hb
      rcases List.mem_map.mp ha with ⟨j, _, hEq⟩
      rcases List.mem_map.mp hb with ⟨q, _, hEq2⟩
      rw [← hEq, ← hEq2]
      exact Or.inl (Nat.succ_pos _)

theorem specCandidates_head_min (d : List Char) (vars : List (List Char))
    (q0 : Nat × Nat) (h : (specCandidates d vars).head? = some q0) :
    ∀ q ∈ specCandidates d vars, q0.1 < q.1 ∨ (q0.1 = q.1 ∧ q0.2 ≤ q.2) := by
  have hpw := specCandidates_pairwise d vars
  intro q hq
  cases hl : specCandidates d vars with
  | nil =>
    rw [hl] at hq
    cases hq
  | cons a tail =>
    rw [hl] at h hq hpw
    have ha : a = q0 := by
      simp only [List.head?_cons, Option.some.injEq] at h
      exact h
    subst ha
    rcases List.mem_cons.mp hq with hq1 | hq2
    · subst hq1
      exact Or.inr (And.intro rfl (le_refl _))
    · have := (List.pairwise_cons.mp hpw).1 q hq2
      rcases this with h1 | ⟨h1, h2⟩
      · exact Or.inl h1
      · exact Or.inr ⟨h1, le_of_lt h2⟩

theorem dictInsert_sound {P : List Char × List Char → Prop}
    (m : List (List Char × List Char)) (k v : List Char)
    (hm : ∀ p ∈ m, P p) (hkv : P (k, v)) :
    ∀ p ∈ dictInsert m k v, P p := by
  intro p hp
  simp only [dictInsert] at hp
  split at hp
  · rcases List.mem_map.mp hp with ⟨q, hq, hfq⟩
    by_cases hqk : q.1 = k
    · rw [if_pos hqk] at hfq
      rw [← hfq]
      exact hkv
    · rw [if_neg hqk] at hfq
      rw [← hfq]
      exact hm q hq
  · rcases List.mem_append.mp hp with h1 | h2
    · exact hm p h1
    · rw [List.mem_singleton.mp h2]
      exact hkv

theorem scanVars_sound {P : List Char × List Char → Prop}
    (d : List Char) (w : Nat) (tech : List Char) :
    ∀ (vars : List (List Char)) (m : List (List Char × List Char)),
      (∀ p ∈ m, P p) →
      (∀ v ∈ vars, ∀ i, matchAt d v i = true →
        P (tech, contextSlice d i (i + v.length) w)) →
      ∀ p ∈ scanVars d w tech vars m, P p := by
  intro vars
  induction vars with
  | nil => intro m hm _ p hp; exact hm p hp
  | cons v rest ih =>
    intro m hm hv p hp
    cases hf : firstMatch d v with
    | some i =>
      simp only [scanVars, hf] at hp
      have hmA : matchAt d v i = true := by
        have := List.find?_some hf
        exact this
      have hm2 : ∀ q ∈ dictInsert m tech (contextSlice d i (i + v.length) w), P q :=
        dictInsert_sound m tech _ hm (hv v (List.mem_cons_self _ _) i hmA)
      split at hp
      · exact hm2 p hp
      · exact ih _ hm2 (fun u hu => hv u (List.mem_cons_of_mem _ hu)) p hp
    | none =>
      simp only [scanVars, hf] at hp
      split at hp
      · exact hm p hp
      · exact ih _ hm (fun u hu => hv u (List.mem_cons_of_mem _ hu)) p hp

theorem foldl_scan_sound (d : List Char) (w : Nat) (idx : SynMap) :
    ∀ l : List (List Char × List (List Char)), (∀ q ∈ l, q ∈ idx) →
      ∀ acc : List (List Char × List Char),
        (∀ p ∈ acc, ∃ vs v i, (p.1, vs) ∈ idx ∧ v ∈ vs ∧ matchAt d v i = true
            ∧ p.2 = contextSlice d i (i + v.length) w) →
        ∀ p ∈ l.foldl (fun ms q => scanVars d w q.1 q.2 ms) acc,
          ∃ vs v i, (p.1, vs) ∈ idx ∧ v ∈ vs ∧ matchAt d v i = true
            ∧ p.2 = contextSlice d i (i + v.length) w := by
  intro l
  induction l with
  | nil => intro _ acc hacc p hp; exact hacc p hp
  | cons q rest ih =>
    intro hsub acc hacc p hp
    rw [List.foldl_cons] at hp
    refine ih (fun u hu => hsub u (List.mem_cons_of_mem _ hu)) _ ?_ p hp
    apply scanVars_sound d w q.1 q.2 acc hacc
    intro v hv i hmA
    exact ⟨q.2, v, i, hsub q (List.mem_cons_self _ _), hv, hmA, rfl⟩

theorem find_context_sound (d : List Char) (idx : SynMap) (w : Nat) :
    ∀ p ∈ find_context d idx w,
      ∃ vs v i, (p.1, vs) ∈ idx ∧ v ∈ vs ∧ matchAt d v i = true
        ∧ p.2 = contextSlice d i (i + v.length) w := by
  intro p hp
  exact foldl_scan_sound d w idx idx (fun q hq => hq) []
    (fun q hq => absurd hq (List.not_mem_nil q)) p hp

theorem matchAt_false_of_no_standalone (d v : List Char)
    (h : hasStandalone d v = false) : ∀ i, matchAt d v i = false := by
  intro i
  by_cases hi : i < d.length + 1
  · simp only [hasStandalone, List.any_eq_false] at h
    have hni := h i (List.mem_range.mpr hi)
    cases hmv : matchAt d v i
    · rfl
    · exact absurd hmv hni
  · cases hmv : matchAt d v i
    · rfl
    · have := matchAt_le d v i hmv
      omega

/-! Claim C3. -/

/-- C3 (amended): the classification loop of `main` has no per-entity
exception handling, so a backend failure while classifying one entity
aborts the run: entities earlier in iteration order have their results
delivered, the failing entity receives no marker, and all later entities
are never classified; the error escapes the loop. -/
theorem c3_backend_failure_aborts_run
    (classify : List Char → List Char → Except (List Char) (List Char))
    (t c e : List Char) (f : List Char × List Char → List Char)
    (herr : classify c t = Except.error e) :
    ∀ pre post : List (List Char × List Char),
      (∀ p ∈ pre, classify p.2 p.1 = Except.ok (f p)) →
      runClassification classify (pre ++ (t, c) :: post)
        = (pre.map (fun p => (p.1, f p)), some e) := by
  intro pre
  induction pre with
  | nil =>
    intro post _
    simp only [List.nil_append, runClassification, herr, List.map_nil]
  | cons q rest ih =>
    intro post hpre
    obtain ⟨qt, qc⟩ := q
    have hq : classify qc qt = Except.ok (f (qt, qc)) :=
      hpre (qt, qc) (List.mem_cons_self _ _)
    simp only [List.cons_append, runClassification, hq, List.map_cons]
    rw [List.append_eq, ih post (fun p hp => hpre p (List.mem_cons_of_mem _ hp))]

/-- C3 counterexample: with three located mentions and a backend that
raises on the second entity, the run aborts: only the first entity has a
result delivered, the third is never classified, and the error escapes —
the final report does not contain the other entities' results. -/
theorem c3_counterexample :
    runClassification failOnB
        [(lc "A", lc "ctxA"), (lc "B", lc "ctxB"), (lc "C", lc "ctxC")]
      = ([(lc "A", lc "Positive")], some (lc "boom"))
    ∧ lookupA (runClassification failOnB
        [(lc "A", lc "ctxA"), (lc "B", lc "ctxB"), (lc "C", lc "ctxC")]).1
        (lc "C") = none := ⟨rfl, rfl⟩

/-- Witness for `c3_backend_failure_aborts_run` on a concrete run. -/
theorem c3_witness :
    runClassification failOnB
        ([(lc "A", lc "ctxA")] ++ (lc "B", lc "ctxB") :: [(lc "C", lc "ctxC")])
      = ([(lc "A", lc "Positive")], some (lc "boom")) :=
  c3_backend_failure_aborts_run failOnB (lc "B") (lc "ctxB") (lc "boom")
    (fun _ => lc "Positive") rfl [(lc "A", lc "ctxA")] [(lc "C", lc "ctxC")]
    (by
      intro p hp
      rw [List.mem_singleton.mp hp]
      rfl)

/-! Claim C5. -/

/-- C5: for each entity of the index (a dict, hence distinct keys), the
mention recorded by `find_context` is exactly the first candidate in
(variation order, then position order): its lookup equals the head of the
flattened candidate list, that list contains precisely the matches of the
entity's variations, its head is minimal in the lexicographic order, and
the output holds at most one entry per entity. -/
theorem c5_first_match_wins (d : List Char) (idx : SynMap) (w : Nat)
    (t : List Char) (vs : List (List Char))
    (hnd : (idx.map Prod.fst).Nodup) (hmem : (t, vs) ∈ idx) :
    lookupA (find_context d idx w) t = specFirstMention d vs w
    ∧ (∀ r i : Nat, (r, i) ∈ specCandidates d vs
        ↔ (r < vs.length ∧ matchAt d (vs.getD r []) i = true))
    ∧ (∀ q0 : Nat × Nat, (specCandidates d vs).head? = some q0 →
        ∀ q ∈ specCandidates d vs, q0.1 < q.1 ∨ (q0.1 = q.1 ∧ q0.2 ≤ q.2))
    ∧ ((find_context d idx w).map Prod.fst).Nodup := by
  refine ⟨?_, mem_specCandidates d vs, specCandidates_head_min d vs,
    find_context_keys_nodup d idx w hnd⟩
  rw [lookupA_find_context d idx w t vs hnd hmem]
  exact findMention_eq_spec d w vs

/-- Witness for `c5_first_match_wins` on a concrete document and index. -/
theorem c5_witness :
    lookupA (find_context (lc "a iPad") [(lc "iPad", [lc "iPad"])] 1) (lc "iPad")
      = specFirstMention (lc "a iPad") [lc "iPad"] 1
    ∧ (∀ r i : Nat, (r, i) ∈ specCandidates (lc "a iPad") [lc "iPad"]
        ↔ (r < ([lc "iPad"] : List (List Char)).length
            ∧ matchAt (lc "a iPad") (([lc "iPad"] : List (List Char)).getD r []) i = true))
    ∧ (∀ q0 : Nat × Nat, (specCandidates (lc "a iPad") [lc "iPad"]).head? = some q0 →
        ∀ q ∈ specCandidates (lc "a iPad") [lc "iPad"],
          q0.1 < q.1 ∨ (q0.1 = q.1 ∧ q0.2 ≤ q.2))
    ∧ ((find_context (lc "a iPad") [(lc "iPad", [lc "iPad"])] 1).map Prod.fst).Nodup :=
  c5_first_match_wins (lc "a iPad") [(lc "iPad", [lc "iPad"])] 1 (lc "iPad")
    [lc "iPad"] (by decide) (by decide)

/-! Claim C6. -/

/-- C6: every context window returned by `find_context` is the slice of the
document obtained by clipping the span [matchStart - window, matchEnd +
window] to [0, len(document)]: the clipped start is never negative, the
clipped end never exceeds the document length, start does not exceed end,
and the window length is at most 2*window plus the matched variation's
length. -/
theorem c6_context_window_bounds (d : List Char) (idx : SynMap) (w : Nat)
    (t c : List Char) (h : (t, c) ∈ find_context d idx w) :
    ∃ v i, (∃ vs, (t, vs) ∈ idx ∧ v ∈ vs) ∧ matchAt d v i = true
      ∧ c = contextSlice d i (i + v.length) w
      ∧ 0 ≤ clipStart i w
      ∧ clipEnd d.length (i + v.length) w ≤ (d.length : Int)
      ∧ clipStart i w ≤ clipEnd d.length (i + v.length) w
      ∧ c.length ≤ 2 * w + v.length := by
  rcases find_context_sound d idx w (t, c) h with ⟨vs, v, i, hvs, hv, hm, hc⟩
  have hc2 : c = contextSlice d i (i + v.length) w := hc
  have hle : i + v.length ≤ d.length := matchAt_le d v i hm
  have hlen : c.length
      = min (clipEnd d.length (i + v.length) w).toNat d.length - (clipStart i w).toNat := by
    rw [hc2]
    simp [contextSlice, List.length_drop, List.length_take]
  refine ⟨v, i, ⟨vs, hvs, hv⟩, hm, hc2, ?_, ?_, ?_, ?_⟩
  · simp only [clipStart]
    omega
  · simp only [clipEnd]
    omega
  · simp only [clipStart, clipEnd]
    omega
  · rw [hlen]
    simp only [clipStart, clipEnd]
    omega

/-- Witness for `c6_context_window_bounds` on a concrete mention. -/
theorem c6_witness :
    ∃ v i, (∃ vs, (lc "iPad", vs) ∈ ([(lc "iPad", [lc "iPad"])] : SynMap) ∧ v ∈ vs)
      ∧ matchAt (lc "go iPad now") v i = true
      ∧ lc "o iPad n" = contextSlice (lc "go iPad now") i (i + v.length) 2
      ∧ 0 ≤ clipStart i 2
      ∧ clipEnd (lc "go iPad now").length (i + v.length) 2
          ≤ ((lc "go iPad now").length : Int)
      ∧ clipStart i 2 ≤ clipEnd (lc "go iPad now").length (i + v.length) 2
      ∧ (lc "o iPad n").length ≤ 2 * 2 + v.length :=
  c6_context_window_bounds (lc "go iPad now") [(lc "iPad", [lc "iPad"])] 2
    (lc "iPad") (lc "o iPad n") (by decide)

/-! Claim C7. -/

/-- C7: matching is case-insensitive and whole-word.  Parts one and two: a
match never has a word character directly before its start nor directly
after its end, so a variation never matches inside a larger word.  Part
three: a document with no standalone occurrence of iPad yields no iPad
mention.  Part four: concretely, iPadding contains no standalone iPad.
Part five: concretely, matching is case-insensitive — IPAD matches the
variation iPad. -/
theorem c7_whole_word_case_insensitive :
    (∀ (d v : List Char) (i : Nat), matchAt d v i = true → 0 < i →
        ¬(wordCharAt d (i - 1) = true ∧ wordCharAt d i = true))
    ∧ (∀ (d v : List Char) (i : Nat), matchAt d v i = true → 0 < i + v.length →
        ¬(wordCharAt d (i + v.length - 1) = true ∧ wordCharAt d (i + v.length) = true))
    ∧ (∀ (d : List Char) (w : Nat), hasStandalone d (lc "iPad") = false →
        lookupA (find_context d [(lc "iPad", [lc "iPad"])] w) (lc "iPad") = none)
    ∧ hasStandalone (lc "Selling iPadding units") (lc "iPad") = false
    ∧ matchAt (lc "IPAD sales") (lc "iPad") 0 = true := by
  have hnoWW : ∀ (d : List Char) (p : Nat), boundaryAt d p = true → 0 < p →
      ¬(wordCharAt d (p - 1) = true ∧ wordCharAt d p = true) := by
    intro d p hb hp hand
    cases p with
    | zero => omega
    | succ q =>
      simp only [boundaryAt] at hb
      rw [Nat.succ_sub_one] at hand
      rw [hand.1, hand.2] at hb
      simp at hb
  refine ⟨?_, ?_, ?_, by decide, by decide⟩
  · intro d v i hm hi
    exact hnoWW d i (matchAt_boundaries d v i hm).1 hi
  · intro d v i hm hi
    exact hnoWW d (i + v.length) (matchAt_boundaries d v i hm).2 hi
  · intro d w hno
    have hnd : (([(lc "iPad", [lc "iPad"])] : SynMap).map Prod.fst).Nodup := by simp
    rw [lookupA_find_context d [(lc "iPad", [lc "iPad"])] w (lc "iPad") [lc "iPad"] hnd
      (List.mem_singleton.mpr rfl)]
    apply findMention_eq_none
    intro v hv i
    rw [List.mem_singleton.mp hv]
    exact matchAt_false_of_no_standalone d (lc "iPad") hno i

/-- Witness for `c7_whole_word_case_insensitive` on a concrete document
containing iPadding but no standalone iPad. -/
theorem c7_witness :
    lookupA (find_context (lc "Selling iPadding units")
        [(lc "iPad", [lc "iPad"])] 500) (lc "iPad") = none :=
  c7_whole_word_case_insensitive.2.2.1 (lc "Selling iPadding units") 500 (by decide)

/-! Claim C9. -/

/-- C9: an entity of the index (a dict, hence distinct keys) none of whose
variations matches anywhere in the document contributes no entry to the
mapping returned by `find_context`; the embedding is total, so this
absence raises no error. -/
theorem c9_unmentioned_entity_absent (d : List Char) (idx : SynMap) (w : Nat)
    (t : List Char) (vs : List (List Char))
    (hnd : (idx.map Prod.fst).Nodup) (hmem : (t, vs) ∈ idx)
    (hno : ∀ v ∈ vs, ∀ i, matchAt d v i = false) :
    lookupA (find_context d idx w) t = none := by
  rw [lookupA_find_context d idx w t vs hnd hmem]
  exact findMention_eq_none d w vs hno

/-- Witness for `c9_unmentioned_entity_absent` on a concrete document. -/
theorem c9_witness :
    lookupA (find_context (lc "nothing here")
        [(lc "iPhone", [lc "iPhone", lc "iOS"])] 3) (lc "iPhone") = none :=
  c9_unmentioned_entity_absent (lc "nothing here")
    [(lc "iPhone", [lc "iPhone", lc "iOS"])] 3 (lc "iPhone")
    [lc "iPhone", lc "iOS"] (by decide) (by decide)
    (by
      intro v hv i
      rcases List.mem_cons.mp hv with h1 | h2
      · subst h1
        exact matchAt_false_of_no_standalone _ _ (by decide) i
      · rw [List.mem_singleton.mp h2]
        exact matchAt_false_of_no_standalone _ _ (by decide) i)

/-! Claim C10. -/

/-- C10: every key of the mapping returned by `find_context` is a canonical
key of the input index, and every value is a contiguous slice of the input
document.  The embedding is a pure function of the document and the index,
mirroring that the source mutates neither (it only builds a fresh mentions
dict). -/
theorem c10_output_within_inputs (d : List Char) (idx : SynMap) (w : Nat)
    (t c : List Char) (h : (t, c) ∈ find_context d idx w) :
    t ∈ idx.map Prod.fst ∧ ∃ s e : Nat, e ≤ d.length ∧ c = (d.take e).drop s := by
  rcases find_context_sound d idx w (t, c) h with ⟨vs, v, i, hvs, _, _, hc⟩
  constructor
  · exact List.mem_map_of_mem Prod.fst hvs
  · refine ⟨(clipStart i w).toNat, (clipEnd d.length (i + v.length) w).toNat, ?_, hc⟩
    simp only [clipEnd]
    omega

/-- Witness for `c10_output_within_inputs` on a concrete mention. -/
theorem c10_witness :
    lc "iPad" ∈ (([(lc "iPad", [lc "iPad"])] : SynMap)).map Prod.fst
    ∧ ∃ s e : Nat, e ≤ (lc "an iPad").length
        ∧ lc " iPad" = ((lc "an iPad").take e).drop s :=
  c10_output_within_inputs (lc "an iPad") [(lc "iPad", [lc "iPad"])] 1
    (lc "iPad") (lc " iPad") (by decide)

end Apple10Q
